import Mathlib

/-!
# Bare-metal blink (`bare_metal_blink/blink.c`)

A small-step embedding of `main` from `blink.c`.  The two macros of the source
dereference fixed byte-wide, volatile addresses; every volatile access is an
observable event, so the machine keeps, besides the memory, the chronological
trace of accesses.  The type of accesses has a constructor for reads as well as
for writes, so that "the program never reads" is a statement about the trace
and not about the type.

The width of `long` is a parameter `w` of the machine (32 on the ATmega328P of
the Arduino Uno); the counter of the delay loops is an `Int` that is wrapped
into the two's-complement range of `w` bits after each increment.
-/

namespace Blink

/-- Address dereferenced by the macro `builtled` (`0x25`, PORTB). -/
def builtled : Nat := 0x25

/-- Address dereferenced by the macro `portb` (`0x24`, DDRB). -/
def portb : Nat := 0x24

/-- Inclusive bound of the first `for` loop (`i <= 100000`). -/
def ON_ITERATIONS : Nat := 100000

/-- Inclusive bound of the second `for` loop (`i <= 1000000`). -/
def OFF_ITERATIONS : Nat := 1000000

/-- Byte-addressed memory. -/
abbrev Mem := Nat → Nat

/-- A volatile access to memory, as observed from outside the processor. -/
inductive Access where
  | read (addr : Nat)
  | write (addr : Nat) (val : Nat)
  deriving DecidableEq, Repr

/-- Store of a `uint8_t`: the value is truncated to eight bits. -/
def store (mem : Mem) (addr val : Nat) : Mem :=
  fun a => if a = addr then val % 256 else mem a

/-- Two's-complement wrap of an integer into `w` bits. -/
def wrapS (w : Nat) (x : Int) : Int :=
  (x + 2 ^ (w - 1)) % 2 ^ w - 2 ^ (w - 1)

/-- Control points of `main`, one for each statement and loop test. -/
inductive Pc where
  /-- before `portb = 32;` -/
  | init
  /-- the test of `while(1)` -/
  | whileTest
  /-- before the first `builtled = 32;` of the loop body -/
  | onWrite
  /-- before `long i = 0` of the first `for` -/
  | onInit
  /-- the test `i <= 100000` -/
  | onTest
  /-- before `builtled = 32;` inside the first `for` -/
  | onBody
  /-- before `i++` of the first `for` -/
  | onInc
  /-- before `builtled = 0;` -/
  | offWrite
  /-- before `long i = 0` of the second `for` -/
  | offInit
  /-- the test `i <= 1000000` -/
  | offTest
  /-- before `builtled = 0;` inside the second `for` -/
  | offBody
  /-- before `i++` of the second `for` -/
  | offInc
  /-- after the `while` statement: `main` returns -/
  | exit
  deriving DecidableEq, Repr

/-- Machine state: control point, the counter `i` of the `for` loop that is
being executed, the memory, and the accesses made so far, oldest first. -/
structure State where
  pc : Pc
  i : Int
  mem : Mem
  trace : List Access

/-- The assignment `*((volatile uint8_t*) addr) = val;` followed by a jump. -/
def assign (s : State) (addr val : Nat) (next : Pc) : State :=
  { s with pc := next, mem := store s.mem addr val,
           trace := s.trace ++ [Access.write addr (val % 256)] }

/-- One step of `main`; `none` when `main` has returned. -/
def step (w : Nat) (s : State) : Option State :=
  match s.pc with
  | Pc.init => some (assign s portb 32 Pc.whileTest)
  | Pc.whileTest =>
      if (1 : Int) ≠ 0 then some { s with pc := Pc.onWrite } else some { s with pc := Pc.exit }
  | Pc.onWrite => some (assign s builtled 32 Pc.onInit)
  | Pc.onInit => some { s with pc := Pc.onTest, i := 0 }
  | Pc.onTest =>
      if s.i ≤ 100000 then some { s with pc := Pc.onBody } else some { s with pc := Pc.offWrite }
  | Pc.onBody => some (assign s builtled 32 Pc.onInc)
  | Pc.onInc => some { s with pc := Pc.onTest, i := wrapS w (s.i + 1) }
  | Pc.offWrite => some (assign s builtled 0 Pc.offInit)
  | Pc.offInit => some { s with pc := Pc.offTest, i := 0 }
  | Pc.offTest =>
      if s.i ≤ 1000000 then some { s with pc := Pc.offBody } else some { s with pc := Pc.whileTest }
  | Pc.offBody => some (assign s builtled 0 Pc.offInc)
  | Pc.offInc => some { s with pc := Pc.offTest, i := wrapS w (s.i + 1) }
  | Pc.exit => none

/-- Execution of `n` steps. -/
def run (w : Nat) : Nat → State → Option State
  | 0, s => some s
  | n + 1, s => (step w s).bind (run w n)

/-- State at the entry of `main`: arbitrary memory, no access made yet.  The
counter is not in scope yet; its slot holds 0. -/
def initial (m : Mem) : State :=
  { pc := Pc.init, i := 0, mem := m, trace := [] }

/-- The state of `main` after `n` steps, started on memory `m`. -/
def main (w : Nat) (m : Mem) (n : Nat) : Option State :=
  run w n (initial m)

/-- Values written to the port register, oldest first. -/
def portWrites : List Access → List Nat
  | [] => []
  | Access.write a v :: t => if a = builtled then v :: portWrites t else portWrites t
  | Access.read _ :: t => portWrites t

/-- Control points of the first `for` statement. -/
def inOnFor : Pc → Bool
  | Pc.onInit | Pc.onTest | Pc.onBody | Pc.onInc => true
  | _ => false

/-- Control points of the second `for` statement. -/
def inOffFor : Pc → Bool
  | Pc.offInit | Pc.offTest | Pc.offBody | Pc.offInc => true
  | _ => false

/-- Number of steps of one pass through the body of `while(1)`, from its test
back to its test: `2 + 300005 + 1 + 3000005`. -/
def cycleSteps : Nat := 3300013

/-- Expected accesses of one pass through the body of `while(1)` (a value to
compare the machine with, not part of the machine). -/
def cycleTrace : List Access :=
  List.replicate 100002 (Access.write builtled 32) ++
    List.replicate 1000002 (Access.write builtled 0)

/-- Expected state at the test of `while(1)` one pass after the state `s` at
that test (a value to compare the machine with, not part of the machine). -/
def cycleEnd (s : State) : State :=
  ⟨Pc.whileTest, 1000001, store s.mem builtled 0, s.trace ++ cycleTrace⟩

/-- Expected state after `portb = 32;` (a value to compare the machine with). -/
def afterInit (m : Mem) : State :=
  ⟨Pc.whileTest, 0, store m portb 32, [Access.write portb 32]⟩

/-- Expected state at the test of `while(1)` after `N` passes. -/
def atCycle (m : Mem) (N : Nat) : State :=
  cycleEnd^[N] (afterInit m)

/-- Invariant of the states reachable from `initial m`: `main` has not
returned; memory away from the two registers is as at entry; before the
initialisation nothing has happened, and after it the direction register holds
32, the trace is the one write to the direction register followed only by
writes of 32 or 0 to the port register, and the port register holds the last
value written to it (its entry value if there is none). -/
def Inv (m : Mem) (s : State) : Prop :=
  s.pc ≠ Pc.exit ∧
  (∀ a, a ≠ portb → a ≠ builtled → s.mem a = m a) ∧
  ((s.pc = Pc.init ∧ s.mem = m ∧ s.trace = []) ∨
   (s.pc ≠ Pc.init ∧ s.mem portb = 32 ∧
     ∃ rest, s.trace = Access.write portb 32 :: rest ∧
       (∀ e ∈ rest, e = Access.write builtled 32 ∨ e = Access.write builtled 0) ∧
       ((rest = [] ∧ s.mem builtled = m builtled) ∨
        ∃ v, rest.getLast? = some (Access.write builtled v) ∧ s.mem builtled = v)))

/-- Bit 5 of a byte: the level of the pin. -/
def bit5 (v : Nat) : Bool := v.testBit 5

/-- Pin levels driven by the writes to the port register, oldest first. -/
def levels (t : List Access) : List Bool :=
  (portWrites t).map bit5

/-- Maximal runs of equal elements, each with its length. -/
def phases : List Bool → List (Bool × Nat)
  | [] => []
  | b :: t =>
    match phases t with
    | [] => [(b, 1)]
    | (c, n) :: r => if b = c then (c, n + 1) :: r else (b, 1) :: (c, n) :: r

/-! ## Small executions -/

/-- The first six steps on a memory of all ones: the initialisation, the test of
`while(1)`, the first write to the port, `long i = 0`, the first test and the
first write inside the loop. -/
theorem main_six_steps :
    (main 32 (fun _ => 255) 6).map
        (fun s => (s.pc, s.i, s.trace, s.mem 0x24, s.mem 0x25, s.mem 0x26))
      = some (Pc.onInc, 0,
          [Access.write 0x24 32, Access.write 0x25 32, Access.write 0x25 32], 32, 32, 255) := by
  decide

/-- The returned state has no successor. -/
theorem step_exit (w : Nat) (i : Int) (m : Mem) (t : List Access) :
    (step w ⟨Pc.exit, i, m, t⟩).isNone = true := rfl

theorem phases_small :
    phases [true, true, false, true, true, true] = [(true, 2), (false, 1), (true, 3)] := by
  decide

theorem levels_small :
    levels [Access.write 0x24 32, Access.write 0x25 32, Access.read 0x25, Access.write 0x25 0,
        Access.write 0x25 223]
      = [true, false, false] := by
  decide

/-! ## Basic facts about the machine -/

open List

theorem run_add (w a b : Nat) (s : State) :
    run w (a + b) s = (run w a s).bind (run w b) := by
  induction a generalizing s with
  | zero => simp [run]
  | succ a ih =>
    rw [Nat.add_right_comm]
    show (step w s).bind (run w (a + b)) = ((step w s).bind (run w a)).bind (run w b)
    cases step w s with
    | none => rfl
    | some s1 => exact ih s1

theorem run_one (w : Nat) (s : State) : run w 1 s = step w s := by
  show (step w s).bind (run w 0) = step w s
  cases step w s <;> rfl

theorem run_succ_last (w n : Nat) (s : State) :
    run w (n + 1) s = (run w n s).bind (step w) := by
  rw [run_add]
  congr 1
  funext t
  exact run_one w t

theorem store_store (m : Mem) (a v : Nat) : store (store m a v) a v = store m a v := by
  funext x
  unfold store
  split <;> rfl

theorem wrapS_32 (x : Int) (h0 : 0 ≤ x) (h1 : x < 2147483648) : wrapS 32 x = x := by
  unfold wrapS
  norm_num
  omega

theorem store_over (m : Mem) (a v v2 : Nat) : store (store m a v) a v2 = store m a v2 := by
  funext x
  unfold store
  split <;> rfl

theorem iterate_store (a v : Nat) (j : Nat) (m : Mem) :
    (fun m => store m a v)^[j + 1] m = store m a v := by
  induction j with
  | zero => rfl
  | succ j ih => rw [Function.iterate_succ_apply', ih, store_store]

/-! ## The first `for` loop -/

/-- Test, body and increment of the first `for`, at a counter within the bound. -/
theorem run_onIter (m : Mem) (t : List Access) (j : Nat) (hj : j ≤ 100000) :
    run 32 3 ⟨Pc.onTest, j, m, t⟩
      = some ⟨Pc.onTest, ((j + 1 : Nat) : Int), store m builtled 32,
              t ++ [Access.write builtled 32]⟩ := by
  have hw : wrapS 32 ((j : Int) + 1) = (j : Int) + 1 := wrapS_32 _ (by omega) (by omega)
  have hc : (j : Int) ≤ 100000 := by omega
  simp [run, step, assign, hc, hw]

/-- State at the test of the first `for` after `j` iterations. -/
theorem run_onLoop (m : Mem) (t : List Access) (j : Nat) (hj : j ≤ 100001) :
    run 32 (3 * j) ⟨Pc.onTest, 0, m, t⟩
      = some ⟨Pc.onTest, j, (fun m => store m builtled 32)^[j] m,
              t ++ replicate j (Access.write builtled 32)⟩ := by
  induction j with
  | zero => simp [run]
  | succ j ih =>
    rw [Nat.mul_succ, run_add, ih (by omega)]
    show run 32 3 _ = _
    rw [run_onIter _ _ j (by omega), Function.iterate_succ_apply', replicate_succ',
      append_assoc]

theorem run_onFor_aux (i0 : Int) (m : Mem) (t : List Access) (j : Nat) (hj : j = 100000) :
    run 32 (1 + 3 * (j + 1) + 1) ⟨Pc.onInit, i0, m, t⟩
      = some ⟨Pc.offWrite, ((j + 1 : Nat) : Int), store m builtled 32,
              t ++ replicate (j + 1) (Access.write builtled 32)⟩ := by
  have h := run_onLoop m t (j + 1) (by omega)
  rw [iterate_store builtled 32 j m] at h
  have h0 : run 32 1 ⟨Pc.onInit, i0, m, t⟩ = some ⟨Pc.onTest, 0, m, t⟩ := rfl
  have hc : ¬ (((j + 1 : Nat) : Int) ≤ 100000) := by omega
  rw [run_add, run_add, h0, Option.some_bind, h, Option.some_bind, run_one]
  simp only [step, hc, if_false]

/-- The first `for` statement from its entry to its exit. -/
theorem run_onFor (i0 : Int) (m : Mem) (t : List Access) :
    run 32 300005 ⟨Pc.onInit, i0, m, t⟩
      = some ⟨Pc.offWrite, 100001, store m builtled 32,
              t ++ replicate 100001 (Access.write builtled 32)⟩ :=
  run_onFor_aux i0 m t 100000 rfl

/-- Every state strictly inside the first `for` statement: the control point
is one of the loop, and the loop has added only writes of 32 to the port. -/
theorem run_onFor_mid (i0 : Int) (m : Mem) (t : List Access) (k : Nat) (hk : k < 300005) :
    ∃ s, run 32 k ⟨Pc.onInit, i0, m, t⟩ = some s ∧ inOnFor s.pc = true ∧
      ∃ j, j ≤ 100001 ∧ s.trace = t ++ replicate j (Access.write builtled 32) := by
  rcases Nat.eq_zero_or_pos k with h0 | hpos
  · subst h0
    exact ⟨_, rfl, rfl, 0, by omega, by simp⟩
  · obtain ⟨j, r, hr, hkj⟩ : ∃ j r, r < 3 ∧ k = 1 + 3 * j + r :=
      ⟨(k - 1) / 3, (k - 1) % 3, Nat.mod_lt _ (by norm_num), by omega⟩
    subst hkj
    have hj : j ≤ 100001 := by omega
    have h0 : run 32 1 ⟨Pc.onInit, i0, m, t⟩ = some ⟨Pc.onTest, 0, m, t⟩ := rfl
    rw [run_add, run_add, h0, Option.some_bind, run_onLoop m t j hj, Option.some_bind]
    interval_cases r
    · exact ⟨_, rfl, rfl, j, hj, rfl⟩
    · have hc : (j : Int) ≤ 100000 := by omega
      refine ⟨⟨Pc.onBody, j, (fun m => store m builtled 32)^[j] m,
          t ++ replicate j (Access.write builtled 32)⟩,
        by simp [run, step, hc], rfl, j, hj, rfl⟩
    · have hc : (j : Int) ≤ 100000 := by omega
      refine ⟨⟨Pc.onInc, j, store ((fun m => store m builtled 32)^[j] m) builtled 32,
          (t ++ replicate j (Access.write builtled 32)) ++ [Access.write builtled 32]⟩,
        by simp [run, step, assign, hc], rfl, j + 1, by omega, ?_⟩
      simp [replicate_succ', append_assoc]

/-! ## The second `for` loop -/

/-- Test, body and increment of the second `for`, at a counter within the bound. -/
theorem run_offIter (m : Mem) (t : List Access) (j : Nat) (hj : j ≤ 1000000) :
    run 32 3 ⟨Pc.offTest, j, m, t⟩
      = some ⟨Pc.offTest, ((j + 1 : Nat) : Int), store m builtled 0,
              t ++ [Access.write builtled 0]⟩ := by
  have hw : wrapS 32 ((j : Int) + 1) = (j : Int) + 1 := wrapS_32 _ (by omega) (by omega)
  have hc : (j : Int) ≤ 1000000 := by omega
  simp [run, step, assign, hc, hw]

/-- State at the test of the second `for` after `j` iterations. -/
theorem run_offLoop (m : Mem) (t : List Access) (j : Nat) (hj : j ≤ 1000001) :
    run 32 (3 * j) ⟨Pc.offTest, 0, m, t⟩
      = some ⟨Pc.offTest, j, (fun m => store m builtled 0)^[j] m,
              t ++ replicate j (Access.write builtled 0)⟩ := by
  induction j with
  | zero => simp [run]
  | succ j ih =>
    rw [Nat.mul_succ, run_add, ih (by omega)]
    show run 32 3 _ = _
    rw [run_offIter _ _ j (by omega), Function.iterate_succ_apply', replicate_succ',
      append_assoc]

theorem run_offFor_aux (i0 : Int) (m : Mem) (t : List Access) (j : Nat) (hj : j = 1000000) :
    run 32 (1 + 3 * (j + 1) + 1) ⟨Pc.offInit, i0, m, t⟩
      = some ⟨Pc.whileTest, ((j + 1 : Nat) : Int), store m builtled 0,
              t ++ replicate (j + 1) (Access.write builtled 0)⟩ := by
  have h := run_offLoop m t (j + 1) (by omega)
  rw [iterate_store builtled 0 j m] at h
  have h0 : run 32 1 ⟨Pc.offInit, i0, m, t⟩ = some ⟨Pc.offTest, 0, m, t⟩ := rfl
  have hc : ¬ (((j + 1 : Nat) : Int) ≤ 1000000) := by omega
  rw [run_add, run_add, h0, Option.some_bind, h, Option.some_bind, run_one]
  simp only [step, hc, if_false]

/-- The second `for` statement from its entry to its exit. -/
theorem run_offFor (i0 : Int) (m : Mem) (t : List Access) :
    run 32 3000005 ⟨Pc.offInit, i0, m, t⟩
      = some ⟨Pc.whileTest, 1000001, store m builtled 0,
              t ++ replicate 1000001 (Access.write builtled 0)⟩ :=
  run_offFor_aux i0 m t 1000000 rfl

/-- Every state strictly inside the second `for` statement: the control point
is one of the loop, and the loop has added only writes of 0 to the port. -/
theorem run_offFor_mid (i0 : Int) (m : Mem) (t : List Access) (k : Nat) (hk : k < 3000005) :
    ∃ s, run 32 k ⟨Pc.offInit, i0, m, t⟩ = some s ∧ inOffFor s.pc = true ∧
      ∃ j, j ≤ 1000001 ∧ s.trace = t ++ replicate j (Access.write builtled 0) := by
  rcases Nat.eq_zero_or_pos k with h0 | hpos
  · subst h0
    exact ⟨_, rfl, rfl, 0, by omega, by simp⟩
  · obtain ⟨j, r, hr, hkj⟩ : ∃ j r, r < 3 ∧ k = 1 + 3 * j + r :=
      ⟨(k - 1) / 3, (k - 1) % 3, Nat.mod_lt _ (by norm_num), by omega⟩
    subst hkj
    have hj : j ≤ 1000001 := by omega
    have h0 : run 32 1 ⟨Pc.offInit, i0, m, t⟩ = some ⟨Pc.offTest, 0, m, t⟩ := rfl
    rw [run_add, run_add, h0, Option.some_bind, run_offLoop m t j hj, Option.some_bind]
    interval_cases r
    · exact ⟨_, rfl, rfl, j, hj, rfl⟩
    · have hc : (j : Int) ≤ 1000000 := by omega
      refine ⟨⟨Pc.offBody, j, (fun m => store m builtled 0)^[j] m,
          t ++ replicate j (Access.write builtled 0)⟩,
        by simp [run, step, hc], rfl, j, hj, rfl⟩
    · have hc : (j : Int) ≤ 1000000 := by omega
      refine ⟨⟨Pc.offInc, j, store ((fun m => store m builtled 0)^[j] m) builtled 0,
          (t ++ replicate j (Access.write builtled 0)) ++ [Access.write builtled 0]⟩,
        by simp [run, step, assign, hc], rfl, j + 1, by omega, ?_⟩
      simp [replicate_succ', append_assoc]

/-! ## The counters of the two loops -/

/-- The counter of the first `for` at every state after its initialisation. -/
theorem run_onFor_counter (i0 : Int) (m : Mem) (t : List Access) (k : Nat) (h0 : 0 < k)
    (hk : k < 300005) :
    ∃ s, run 32 k ⟨Pc.onInit, i0, m, t⟩ = some s ∧ ∃ j : Nat, j ≤ 100001 ∧ s.i = j := by
  obtain ⟨j, r, hr, hkj⟩ : ∃ j r, r < 3 ∧ k = 1 + 3 * j + r :=
    ⟨(k - 1) / 3, (k - 1) % 3, Nat.mod_lt _ (by norm_num), by omega⟩
  subst hkj
  have hj : j ≤ 100001 := by omega
  have h1 : run 32 1 ⟨Pc.onInit, i0, m, t⟩ = some ⟨Pc.onTest, 0, m, t⟩ := rfl
  rw [run_add, run_add, h1, Option.some_bind, run_onLoop m t j hj, Option.some_bind]
  interval_cases r
  · exact ⟨_, rfl, j, hj, rfl⟩
  · have hc : (j : Int) ≤ 100000 := by omega
    exact ⟨⟨Pc.onBody, j, (fun m => store m builtled 32)^[j] m,
        t ++ replicate j (Access.write builtled 32)⟩,
      by simp [run, step, hc], j, hj, rfl⟩
  · have hc : (j : Int) ≤ 100000 := by omega
    exact ⟨⟨Pc.onInc, j, store ((fun m => store m builtled 32)^[j] m) builtled 32,
        (t ++ replicate j (Access.write builtled 32)) ++ [Access.write builtled 32]⟩,
      by simp [run, step, assign, hc], j, hj, rfl⟩

/-- The state before the increment number `j` of the first `for`. -/
theorem run_onFor_inc (i0 : Int) (m : Mem) (t : List Access) (j : Nat) (hj : j ≤ 100000) :
    ∃ s, run 32 (1 + 3 * j + 2) ⟨Pc.onInit, i0, m, t⟩ = some s ∧ s.pc = Pc.onInc ∧ s.i = j := by
  have h1 : run 32 1 ⟨Pc.onInit, i0, m, t⟩ = some ⟨Pc.onTest, 0, m, t⟩ := rfl
  have hc : (j : Int) ≤ 100000 := by omega
  rw [run_add, run_add, h1, Option.some_bind, run_onLoop m t j (by omega), Option.some_bind]
  exact ⟨⟨Pc.onInc, j, store ((fun m => store m builtled 32)^[j] m) builtled 32,
      (t ++ replicate j (Access.write builtled 32)) ++ [Access.write builtled 32]⟩,
    by simp [run, step, assign, hc], rfl, rfl⟩

/-- The state at the test number `j` of the first `for`. -/
theorem run_onFor_test (i0 : Int) (m : Mem) (t : List Access) (j : Nat) (hj : j ≤ 100001) :
    ∃ s, run 32 (1 + 3 * j) ⟨Pc.onInit, i0, m, t⟩ = some s ∧ s.pc = Pc.onTest ∧ s.i = j := by
  have h1 : run 32 1 ⟨Pc.onInit, i0, m, t⟩ = some ⟨Pc.onTest, 0, m, t⟩ := rfl
  rw [run_add, h1, Option.some_bind, run_onLoop m t j hj]
  exact ⟨_, rfl, rfl, rfl⟩

/-- The counter of the second `for` at every state after its initialisation. -/
theorem run_offFor_counter (i0 : Int) (m : Mem) (t : List Access) (k : Nat) (h0 : 0 < k)
    (hk : k < 3000005) :
    ∃ s, run 32 k ⟨Pc.offInit, i0, m, t⟩ = some s ∧ ∃ j : Nat, j ≤ 1000001 ∧ s.i = j := by
  obtain ⟨j, r, hr, hkj⟩ : ∃ j r, r < 3 ∧ k = 1 + 3 * j + r :=
    ⟨(k - 1) / 3, (k - 1) % 3, Nat.mod_lt _ (by norm_num), by omega⟩
  subst hkj
  have hj : j ≤ 1000001 := by omega
  have h1 : run 32 1 ⟨Pc.offInit, i0, m, t⟩ = some ⟨Pc.offTest, 0, m, t⟩ := rfl
  rw [run_add, run_add, h1, Option.some_bind, run_offLoop m t j hj, Option.some_bind]
  interval_cases r
  · exact ⟨_, rfl, j, hj, rfl⟩
  · have hc : (j : Int) ≤ 1000000 := by omega
    exact ⟨⟨Pc.offBody, j, (fun m => store m builtled 0)^[j] m,
        t ++ replicate j (Access.write builtled 0)⟩,
      by simp [run, step, hc], j, hj, rfl⟩
  · have hc : (j : Int) ≤ 1000000 := by omega
    exact ⟨⟨Pc.offInc, j, store ((fun m => store m builtled 0)^[j] m) builtled 0,
        (t ++ replicate j (Access.write builtled 0)) ++ [Access.write builtled 0]⟩,
      by simp [run, step, assign, hc], j, hj, rfl⟩

/-- The state before the increment number `j` of the second `for`. -/
theorem run_offFor_inc (i0 : Int) (m : Mem) (t : List Access) (j : Nat) (hj : j ≤ 1000000) :
    ∃ s, run 32 (1 + 3 * j + 2) ⟨Pc.offInit, i0, m, t⟩ = some s ∧ s.pc = Pc.offInc ∧ s.i = j := by
  have h1 : run 32 1 ⟨Pc.offInit, i0, m, t⟩ = some ⟨Pc.offTest, 0, m, t⟩ := rfl
  have hc : (j : Int) ≤ 1000000 := by omega
  rw [run_add, run_add, h1, Option.some_bind, run_offLoop m t j (by omega), Option.some_bind]
  exact ⟨⟨Pc.offInc, j, store ((fun m => store m builtled 0)^[j] m) builtled 0,
      (t ++ replicate j (Access.write builtled 0)) ++ [Access.write builtled 0]⟩,
    by simp [run, step, assign, hc], rfl, rfl⟩

/-- The state at the test number `j` of the second `for`. -/
theorem run_offFor_test (i0 : Int) (m : Mem) (t : List Access) (j : Nat) (hj : j ≤ 1000001) :
    ∃ s, run 32 (1 + 3 * j) ⟨Pc.offInit, i0, m, t⟩ = some s ∧ s.pc = Pc.offTest ∧ s.i = j := by
  have h1 : run 32 1 ⟨Pc.offInit, i0, m, t⟩ = some ⟨Pc.offTest, 0, m, t⟩ := rfl
  rw [run_add, h1, Option.some_bind, run_offLoop m t j hj]
  exact ⟨_, rfl, rfl, rfl⟩

/-! ## A counter of 16 bits -/

theorem wrapS_16_le (x : Int) : wrapS 16 x ≤ 32767 := by
  unfold wrapS
  norm_num
  omega

/-- With a counter of 16 bits the machine never gets past the first `for`. -/
theorem stuck16_step (s : State)
    (h : inOffFor s.pc = false ∧ s.pc ≠ Pc.offWrite ∧ s.pc ≠ Pc.exit ∧ s.i ≤ 32767) :
    ∃ s2, step 16 s = some s2 ∧
      (inOffFor s2.pc = false ∧ s2.pc ≠ Pc.offWrite ∧ s2.pc ≠ Pc.exit ∧ s2.i ≤ 32767) := by
  obtain ⟨pc, i, mem, t⟩ := s
  obtain ⟨h1, h2, h3, h4⟩ := h
  simp only at h4
  have hw := wrapS_16_le (i + 1)
  cases pc
  case init => exact ⟨_, rfl, by simp [inOffFor, assign, h4]⟩
  case whileTest =>
    exact ⟨⟨Pc.onWrite, i, mem, t⟩, by simp [step], by simp [inOffFor, h4]⟩
  case onWrite => exact ⟨_, rfl, by simp [inOffFor, assign, h4]⟩
  case onInit => exact ⟨_, rfl, by simp [inOffFor]⟩
  case onTest =>
    have hc : i ≤ 100000 := by omega
    exact ⟨⟨Pc.onBody, i, mem, t⟩, by simp [step, hc], by simp [inOffFor, h4]⟩
  case onBody => exact ⟨_, rfl, by simp [inOffFor, assign, h4]⟩
  case onInc => exact ⟨_, rfl, by simp [inOffFor, hw]⟩
  case offWrite => exact absurd rfl h2
  case offInit => simp [inOffFor] at h1
  case offTest => simp [inOffFor] at h1
  case offBody => simp [inOffFor] at h1
  case offInc => simp [inOffFor] at h1
  case exit => exact absurd rfl h3

theorem stuck16_main (m : Mem) (n : Nat) :
    ∃ s, main 16 m n = some s ∧
      (inOffFor s.pc = false ∧ s.pc ≠ Pc.offWrite ∧ s.pc ≠ Pc.exit ∧ s.i ≤ 32767) := by
  induction n with
  | zero => exact ⟨initial m, rfl, by simp [initial, inOffFor]⟩
  | succ n ih =>
    obtain ⟨s, hs, hi⟩ := ih
    obtain ⟨s2, h2, hi2⟩ := stuck16_step s hi
    refine ⟨s2, ?_, hi2⟩
    unfold main at hs ⊢
    rw [run_succ_last, hs, Option.some_bind, h2]

/-! ## One pass through the body of `while(1)` -/

theorem run_cycle (i0 : Int) (m : Mem) (t : List Access) :
    run 32 cycleSteps ⟨Pc.whileTest, i0, m, t⟩ = some (cycleEnd ⟨Pc.whileTest, i0, m, t⟩) := by
  have e : cycleSteps = 2 + 300005 + 1 + 3000005 := rfl
  have h2 : run 32 2 ⟨Pc.whileTest, i0, m, t⟩
      = some ⟨Pc.onInit, i0, store m builtled 32, t ++ [Access.write builtled 32]⟩ := by
    simp [run, step, assign]
  have h1 : ∀ (m1 : Mem) (t1 : List Access), run 32 1 ⟨Pc.offWrite, 100001, m1, t1⟩
      = some ⟨Pc.offInit, 100001, store m1 builtled 0, t1 ++ [Access.write builtled 0]⟩ := by
    intro m1 t1
    simp [run, step, assign]
  have r1 : replicate 100002 (Access.write builtled 32)
      = Access.write builtled 32 :: replicate 100001 (Access.write builtled 32) :=
    replicate_succ (Access.write builtled 32) 100001
  have r2 : replicate 1000002 (Access.write builtled 0)
      = Access.write builtled 0 :: replicate 1000001 (Access.write builtled 0) :=
    replicate_succ (Access.write builtled 0) 1000001
  rw [e, run_add, run_add, run_add, h2, Option.some_bind, run_onFor, Option.some_bind, h1,
    Option.some_bind, run_offFor]
  simp only [cycleEnd, cycleTrace, r1, r2, store_store, store_over, append_assoc, cons_append,
    nil_append]

theorem run_cycle_of_pc (s : State) (h : s.pc = Pc.whileTest) :
    run 32 cycleSteps s = some (cycleEnd s) := by
  obtain ⟨pc, i0, m, t⟩ := s
  simp only at h
  subst h
  exact run_cycle i0 m t

theorem main_init (w : Nat) (m : Mem) : main w m 1 = some (afterInit m) := by
  simp [main, run, step, initial, assign, afterInit]

theorem atCycle_succ (m : Mem) (N : Nat) : atCycle m (N + 1) = cycleEnd (atCycle m N) :=
  Function.iterate_succ_apply' cycleEnd N (afterInit m)

theorem atCycle_pc (m : Mem) (N : Nat) : (atCycle m N).pc = Pc.whileTest := by
  cases N with
  | zero => rfl
  | succ N => rw [atCycle_succ]; rfl

theorem atCycle_trace (m : Mem) (N : Nat) :
    (atCycle m N).trace = Access.write portb 32 :: (replicate N cycleTrace).flatten := by
  induction N with
  | zero => rfl
  | succ N ih =>
    rw [atCycle_succ]
    show (atCycle m N).trace ++ cycleTrace = _
    rw [ih, replicate_succ', flatten_append]
    simp

/-- After the initialisation and `N` passes the machine is at the test of `while(1)`. -/
theorem main_cycles (m : Mem) (N : Nat) :
    main 32 m (1 + N * cycleSteps) = some (atCycle m N) := by
  induction N with
  | zero => exact main_init 32 m
  | succ N ih =>
    have e : 1 + (N + 1) * cycleSteps = (1 + N * cycleSteps) + cycleSteps := by
      rw [Nat.succ_mul, Nat.add_assoc]
    unfold main at ih ⊢
    rw [e, run_add, ih, Option.some_bind, run_cycle_of_pc _ (atCycle_pc m N), atCycle_succ]

/-! ## The invariant of the reachable states -/

theorem inv_initial (m : Mem) : Inv m (initial m) :=
  ⟨by simp [initial], fun _ _ _ => rfl, Or.inl ⟨rfl, rfl, rfl⟩⟩

theorem inv_init (m : Mem) (s : State) (h : Inv m s) (hpc : s.pc = Pc.init) :
    Inv m (assign s portb 32 Pc.whileTest) := by
  obtain ⟨_, _, h3⟩ := h
  rcases h3 with ⟨_, hm, ht⟩ | ⟨hn, _⟩
  · refine ⟨by simp [assign], ?_, Or.inr ⟨by simp [assign], by simp [assign, store], [], ?_, ?_, ?_⟩⟩
    · intro a ha _
      simp [assign, store, ha, hm]
    · simp [assign, ht]
    · simp
    · left
      simp [assign, store, hm, portb, builtled]
  · exact absurd hpc hn

theorem inv_jump (m : Mem) (s : State) (h : Inv m s) (hpc : s.pc ≠ Pc.init) (pc2 : Pc) (i2 : Int)
    (h1 : pc2 ≠ Pc.init) (h2 : pc2 ≠ Pc.exit) :
    Inv m { s with pc := pc2, i := i2 } := by
  obtain ⟨_, hf, h3⟩ := h
  rcases h3 with ⟨hi, _⟩ | ⟨_, hd, hr⟩
  · exact absurd hi hpc
  · exact ⟨h2, hf, Or.inr ⟨h1, hd, hr⟩⟩

theorem inv_assign (m : Mem) (s : State) (h : Inv m s) (hpc : s.pc ≠ Pc.init) (pc2 : Pc) (v : Nat)
    (h1 : pc2 ≠ Pc.init) (h2 : pc2 ≠ Pc.exit) (hv : v = 32 ∨ v = 0) :
    Inv m (assign s builtled v pc2) := by
  have hv2 : v % 256 = v := by rcases hv with rfl | rfl <;> rfl
  obtain ⟨_, hf, h3⟩ := h
  rcases h3 with ⟨hi, _⟩ | ⟨_, hd, rest, ht, hall, _⟩
  · exact absurd hi hpc
  · refine ⟨h2, ?_, Or.inr ⟨h1, ?_, rest ++ [Access.write builtled v], ?_, ?_, Or.inr ⟨v, ?_, ?_⟩⟩⟩
    · intro a _ hb
      simp [assign, store, hb, hf a ‹_› hb]
    · simpa [assign, store, portb, builtled] using hd
    · simp [assign, ht, hv2]
    · intro e he
      rcases mem_append.mp he with he | he
      · exact hall e he
      · rw [mem_singleton] at he
        rcases hv with rfl | rfl
        · exact Or.inl he
        · exact Or.inr he
    · simp
    · simp [assign, store, hv2]

/-- The invariant is kept by every step, and every state that satisfies it
has a next state. -/
theorem inv_step (w : Nat) (m : Mem) (s : State) (h : Inv m s) :
    ∃ s2, step w s = some s2 ∧ Inv m s2 := by
  obtain ⟨pc, i, mem, t⟩ := s
  cases pc
  case init => exact ⟨_, rfl, inv_init m _ h rfl⟩
  case whileTest =>
    exact ⟨_, by simp [step], inv_jump m _ h (by simp) Pc.onWrite i (by simp) (by simp)⟩
  case onWrite =>
    exact ⟨_, rfl, inv_assign m _ h (by simp) Pc.onInit 32 (by simp) (by simp) (Or.inl rfl)⟩
  case onInit => exact ⟨_, rfl, inv_jump m _ h (by simp) Pc.onTest 0 (by simp) (by simp)⟩
  case onTest =>
    by_cases hc : i ≤ 100000
    · exact ⟨_, by simp [step, hc], inv_jump m _ h (by simp) Pc.onBody i (by simp) (by simp)⟩
    · exact ⟨_, by simp [step, hc], inv_jump m _ h (by simp) Pc.offWrite i (by simp) (by simp)⟩
  case onBody =>
    exact ⟨_, rfl, inv_assign m _ h (by simp) Pc.onInc 32 (by simp) (by simp) (Or.inl rfl)⟩
  case onInc =>
    exact ⟨_, rfl, inv_jump m _ h (by simp) Pc.onTest (wrapS w (i + 1)) (by simp) (by simp)⟩
  case offWrite =>
    exact ⟨_, rfl, inv_assign m _ h (by simp) Pc.offInit 0 (by simp) (by simp) (Or.inr rfl)⟩
  case offInit => exact ⟨_, rfl, inv_jump m _ h (by simp) Pc.offTest 0 (by simp) (by simp)⟩
  case offTest =>
    by_cases hc : i ≤ 1000000
    · exact ⟨_, by simp [step, hc], inv_jump m _ h (by simp) Pc.offBody i (by simp) (by simp)⟩
    · exact ⟨_, by simp [step, hc], inv_jump m _ h (by simp) Pc.whileTest i (by simp) (by simp)⟩
  case offBody =>
    exact ⟨_, rfl, inv_assign m _ h (by simp) Pc.offInc 0 (by simp) (by simp) (Or.inr rfl)⟩
  case offInc =>
    exact ⟨_, rfl, inv_jump m _ h (by simp) Pc.offTest (wrapS w (i + 1)) (by simp) (by simp)⟩
  case exit => exact absurd rfl h.1

/-- Every finite execution of `main` from its entry exists and ends in a state
that satisfies the invariant. -/
theorem inv_main (w : Nat) (m : Mem) (n : Nat) : ∃ s, main w m n = some s ∧ Inv m s := by
  induction n with
  | zero => exact ⟨_, rfl, inv_initial m⟩
  | succ n ih =>
    obtain ⟨s, hs, hi⟩ := ih
    obtain ⟨s2, h2, hi2⟩ := inv_step w m s hi
    refine ⟨s2, ?_, hi2⟩
    unfold main at hs ⊢
    rw [run_succ_last, hs, Option.some_bind, h2]

/-! ## Runs of equal pin level -/

theorem phases_cons (b : Bool) (t : List Bool) :
    phases (b :: t) = match phases t with
      | [] => [(b, 1)]
      | (c, n) :: r => if b = c then (c, n + 1) :: r else (b, 1) :: (c, n) :: r := rfl

theorem phases_head (x : Bool) (t : List Bool) : ∃ n r, phases (x :: t) = (x, n) :: r := by
  rw [phases_cons]
  cases h : phases t with
  | nil => exact ⟨1, [], rfl⟩
  | cons p r =>
    obtain ⟨c, k⟩ := p
    by_cases hb : x = c
    · subst hb
      exact ⟨k + 1, r, by simp⟩
    · exact ⟨1, (c, k) :: r, by simp [hb]⟩

theorem phases_replicate_append (b : Bool) (n : Nat) (l : List Bool)
    (hl : ∀ c k r, phases l = (c, k) :: r → c ≠ b) :
    phases (replicate (n + 1) b ++ l) = (b, n + 1) :: phases l := by
  induction n with
  | zero =>
    show phases (b :: l) = _
    rw [phases_cons]
    cases h : phases l with
    | nil => rfl
    | cons p r =>
      obtain ⟨c, k⟩ := p
      have hne : ¬ b = c := fun e => hl c k r h e.symm
      simp [hne]
  | succ n ih =>
    show phases (b :: (replicate (n + 1) b ++ l)) = _
    rw [phases_cons]
    rw [ih]
    simp

/-- Every run is non-empty. -/
theorem phases_pos (l : List Bool) : ∀ p ∈ phases l, 0 < p.2 := by
  induction l with
  | nil => simp [phases]
  | cons x t ih =>
    rw [phases_cons]
    cases h : phases t with
    | nil => simp
    | cons q r =>
      obtain ⟨c, k⟩ := q
      rw [h] at ih
      by_cases hb : x = c
      · intro p hp
        simp only [hb, if_true, mem_cons] at hp
        rcases hp with rfl | hp
        · exact Nat.succ_pos k
        · exact ih p (mem_cons_of_mem _ hp)
      · intro p hp
        simp only [hb, if_false, mem_cons] at hp
        rcases hp with rfl | rfl | hp
        · exact Nat.one_pos
        · exact ih _ (mem_cons_self _ _)
        · exact ih p (mem_cons_of_mem _ hp)

/-- Writing out every run gives the sequence back. -/
theorem phases_expand (l : List Bool) :
    ((phases l).map (fun p => replicate p.2 p.1)).flatten = l := by
  induction l with
  | nil => simp [phases]
  | cons x t ih =>
    rw [phases_cons]
    cases h : phases t with
    | nil =>
      rw [h] at ih
      simp at ih
      simp [← ih]
    | cons q r =>
      obtain ⟨c, k⟩ := q
      rw [h] at ih
      by_cases hb : x = c
      · subst hb
        simp only [if_true, map_cons, flatten_cons, replicate_succ, cons_append] at ih ⊢
        rw [ih]
      · simp only [hb, if_false, map_cons, flatten_cons] at ih ⊢
        rw [ih]
        rfl

/-- Neighbouring runs have different levels: the runs are maximal. -/
theorem phases_chain (l : List Bool) : (phases l).Chain' (fun p q => p.1 ≠ q.1) := by
  induction l with
  | nil => simp [phases]
  | cons x t ih =>
    rw [phases_cons]
    cases h : phases t with
    | nil => simp
    | cons q r =>
      obtain ⟨c, k⟩ := q
      rw [h] at ih
      by_cases hb : x = c
      · simp only [hb, if_true]
        cases r with
        | nil => simp
        | cons q2 r2 =>
          rw [chain'_cons] at ih ⊢
          exact ih
      · simp only [hb, if_false]
        rw [chain'_cons]
        exact ⟨hb, ih⟩

/-! ## The pin levels of `N` passes -/

theorem portWrites_append (a b : List Access) :
    portWrites (a ++ b) = portWrites a ++ portWrites b := by
  induction a with
  | nil => rfl
  | cons e a ih =>
    cases e with
    | read x => simpa [portWrites] using ih
    | write x v =>
      by_cases hx : x = builtled
      · simp [portWrites, hx, ih]
      · simp [portWrites, hx, ih]

theorem portWrites_replicate (n v : Nat) :
    portWrites (replicate n (Access.write builtled v)) = replicate n v := by
  induction n with
  | zero => rfl
  | succ n ih => simp [replicate_succ, portWrites, ih]

theorem levels_append (a b : List Access) : levels (a ++ b) = levels a ++ levels b := by
  simp [levels, portWrites_append]

theorem levels_passes (x y N : Nat) :
    levels (replicate N (replicate x (Access.write builtled 32) ++
        replicate y (Access.write builtled 0))).flatten
      = (replicate N (replicate x true ++ replicate y false)).flatten := by
  have h32 : bit5 32 = true := by decide
  have h0 : bit5 0 = false := by decide
  induction N with
  | zero => rfl
  | succ N ih =>
    rw [replicate_succ, flatten_cons, levels_append, ih, replicate_succ, flatten_cons]
    congr 1
    simp only [levels, portWrites_append, portWrites_replicate, map_append, map_replicate, h32, h0]

theorem phases_passes (a b N : Nat) :
    phases (replicate N (replicate (a + 1) true ++ replicate (b + 1) false)).flatten
      = (replicate N [(true, a + 1), (false, b + 1)]).flatten := by
  induction N with
  | zero => rfl
  | succ N ih =>
    have e1 : ∀ (α : Type) (x : List α), (replicate (N + 1) x).flatten
        = x ++ (replicate N x).flatten := fun _ _ => rfl
    rw [e1, e1, append_assoc, phases_replicate_append, phases_replicate_append, ih]
    · rfl
    · intro c k r h
      rw [ih] at h
      cases N with
      | zero => simp at h
      | succ N =>
        have e2 : (replicate (N + 1) [(true, a + 1), (false, b + 1)]).flatten
            = (true, a + 1) :: ((false, b + 1) ::
                (replicate N [(true, a + 1), (false, b + 1)]).flatten) := rfl
        rw [e2] at h
        simp only [cons.injEq, Prod.mk.injEq] at h
        rw [← h.1.1]
        simp
    · intro c k r h
      obtain ⟨n2, r2, h2⟩ := phases_head false
        (replicate b false ++ (replicate N (replicate (a + 1) true ++ replicate (b + 1) false)).flatten)
      have e3 : replicate (b + 1) false
            ++ (replicate N (replicate (a + 1) true ++ replicate (b + 1) false)).flatten
          = false :: (replicate b false
            ++ (replicate N (replicate (a + 1) true ++ replicate (b + 1) false)).flatten) := rfl
      rw [e3, h2] at h
      simp only [cons.injEq, Prod.mk.injEq] at h
      rw [← h.1.1]
      simp

/-- The runs of pin levels after the initialisation and `N` passes. -/
theorem phases_atCycle (m : Mem) (N : Nat) :
    phases (levels (atCycle m N).trace)
      = (replicate N [(true, 100002), (false, 1000002)]).flatten := by
  have h1 : levels (atCycle m N).trace = levels (replicate N cycleTrace).flatten := by
    rw [atCycle_trace]
    simp [levels, portWrites, portb, builtled]
  rw [h1]
  exact (congrArg phases (levels_passes 100002 1000002 N)).trans
    (phases_passes 100001 1000001 N)

theorem portWrites_ports (rest : List Access)
    (h : ∀ e ∈ rest, e = Access.write builtled 32 ∨ e = Access.write builtled 0) :
    ∀ v ∈ portWrites rest, v = 32 ∨ v = 0 := by
  induction rest with
  | nil => simp [portWrites]
  | cons e r ih =>
    intro v hv
    have hr := ih (fun e2 he2 => h e2 (mem_cons_of_mem _ he2))
    rcases h e (mem_cons_self _ _) with rfl | rfl
    · simp only [portWrites, if_true, mem_cons] at hv
      rcases hv with rfl | hv
      · exact Or.inl rfl
      · exact hr v hv
    · simp only [portWrites, if_true, mem_cons] at hv
      rcases hv with rfl | hv
      · exact Or.inr rfl
      · exact hr v hv

theorem testBit_32 (k : Nat) (hk : k ≠ 5) : Nat.testBit 32 k = false :=
  Nat.testBit_two_pow_of_ne (n := 5) (m := k) (fun e => hk e.symm)

theorem testBit_0_or_32 (v k : Nat) (hv : v = 32 ∨ v = 0) (hk : k ≠ 5) :
    v.testBit k = false := by
  rcases hv with rfl | rfl
  · exact testBit_32 k hk
  · exact Nat.zero_testBit k

theorem flatten_pairs_length {α : Type} (a b : α) (N : Nat) :
    (replicate N [a, b]).flatten.length = 2 * N := by
  induction N with
  | zero => rfl
  | succ N ih =>
    have e : (replicate (N + 1) [a, b]).flatten = a :: b :: (replicate N [a, b]).flatten := rfl
    rw [e, length_cons, length_cons, ih]
    ring

theorem flatten_pairs_getElem {α : Type} (a b : α) (N k : Nat) (hk : k < N) :
    (replicate N [a, b]).flatten[2 * k]? = some a ∧
      (replicate N [a, b]).flatten[2 * k + 1]? = some b := by
  induction N generalizing k with
  | zero => omega
  | succ N ih =>
    have e : (replicate (N + 1) [a, b]).flatten = a :: b :: (replicate N [a, b]).flatten := rfl
    rw [e]
    cases k with
    | zero => exact ⟨by simp, by simp⟩
    | succ k =>
      have e2 : 2 * (k + 1) = (2 * k + 1) + 1 := by ring
      rw [e2, getElem?_cons_succ, getElem?_cons_succ, getElem?_cons_succ, getElem?_cons_succ]
      exact ih k (by omega)

/-! ## Positions inside a pass -/

theorem main_at (m : Mem) (N k : Nat) :
    main 32 m (1 + N * cycleSteps + k) = run 32 k (atCycle m N) := by
  have h := main_cycles m N
  unfold main at h ⊢
  rw [run_add, h, Option.some_bind]

theorem run_whileTest (i : Int) (m : Mem) (t : List Access) :
    run 32 2 ⟨Pc.whileTest, i, m, t⟩
      = some ⟨Pc.onInit, i, store m builtled 32, t ++ [Access.write builtled 32]⟩ := by
  simp [run, step, assign]

theorem run_offWrite (i : Int) (m : Mem) (t : List Access) :
    run 32 1 ⟨Pc.offWrite, i, m, t⟩
      = some ⟨Pc.offInit, i, store m builtled 0, t ++ [Access.write builtled 0]⟩ := by
  simp [run, step, assign]

/-- Entry of the first `for` in pass `N`. -/
theorem main_onInit (m : Mem) (N : Nat) :
    ∃ i1 m1 t1, main 32 m (3 + N * cycleSteps) = some ⟨Pc.onInit, i1, m1, t1⟩ ∧
      ∀ k, main 32 m (3 + N * cycleSteps + k) = run 32 k ⟨Pc.onInit, i1, m1, t1⟩ := by
  have hpc := atCycle_pc m N
  have e0 : 3 + N * cycleSteps = 1 + N * cycleSteps + 2 := by ring
  have e1 : ∀ k, 3 + N * cycleSteps + k = 1 + N * cycleSteps + (2 + k) := fun k => by ring
  generalize hA : atCycle m N = A at hpc
  obtain ⟨pc, i, mem, t⟩ := A
  simp only at hpc
  subst hpc
  refine ⟨i, store mem builtled 32, t ++ [Access.write builtled 32], ?_, fun k => ?_⟩
  · rw [e0, main_at, hA, run_whileTest]
  · rw [e1, main_at, hA, run_add, run_whileTest, Option.some_bind]

/-- Entry of the second `for` in pass `N`. -/
theorem main_offInit (m : Mem) (N : Nat) :
    ∃ i1 m1 t1, main 32 m (300009 + N * cycleSteps) = some ⟨Pc.offInit, i1, m1, t1⟩ ∧
      ∀ k, main 32 m (300009 + N * cycleSteps + k) = run 32 k ⟨Pc.offInit, i1, m1, t1⟩ := by
  obtain ⟨i1, m1, t1, _, h⟩ := main_onInit m N
  have e0 : 300009 + N * cycleSteps = 3 + N * cycleSteps + (300005 + 1) := by ring
  have e1 : ∀ k, 300009 + N * cycleSteps + k = 3 + N * cycleSteps + (300005 + 1 + k) :=
    fun k => by ring
  refine ⟨100001, store (store m1 builtled 32) builtled 0,
    (t1 ++ replicate 100001 (Access.write builtled 32)) ++ [Access.write builtled 0], ?_,
    fun k => ?_⟩
  · rw [e0, h, run_add, run_onFor, Option.some_bind, run_offWrite]
  · rw [e1, h, run_add, run_add, run_onFor, Option.some_bind, run_offWrite, Option.some_bind]

/-! ## The claims -/

/-- C1: for every prior content of memory (and every width of `long`), the
initialisation step of `main`, the one statement before the loop, leaves exactly
the byte 32 in the direction register at address 0x24: bit 5 is 1 and every
other bit is 0, whatever the register held before.  The step is one write
access and no read, and it ends at the test of `while(1)`. -/
theorem C1_init_overwrites_direction (w : Nat) (m : Mem) :
    ∃ s, main w m 1 = some s ∧ s.pc = Pc.whileTest ∧ s.mem 0x24 = 32 ∧
      (s.mem 0x24).testBit 5 = true ∧
      (∀ k, k ≠ 5 → (s.mem 0x24).testBit k = false) ∧
      s.trace = [Access.write 0x24 32] := by
  have h5 : Nat.testBit 32 5 = true := by decide
  exact ⟨afterInit m, main_init w m, rfl, rfl, h5, fun k hk => testBit_32 k hk, rfl⟩

/-- C2: in every pass `N` of the infinite loop, for every memory at entry, the
first `for` statement is entered after `3 + N * cycleSteps` steps and is left,
for `builtled = 0;`, exactly 300005 steps later, having added to the trace
exactly `ON_ITERATIONS + 1 = 100001` accesses, each a write of the byte 32,
whose bit 5 is 1, to the port register at 0x25; at every step in between the
machine is inside that `for` statement and the statement has added only such
writes. -/
theorem C2_on_loop_writes (m : Mem) (N : Nat) :
    ∃ i1 m1 t1,
      main 32 m (3 + N * cycleSteps) = some ⟨Pc.onInit, i1, m1, t1⟩ ∧
      main 32 m (3 + N * cycleSteps + 300005)
        = some ⟨Pc.offWrite, 100001, store m1 0x25 32,
            t1 ++ List.replicate (ON_ITERATIONS + 1) (Access.write 0x25 32)⟩ ∧
      (∀ k, k < 300005 → ∃ s, main 32 m (3 + N * cycleSteps + k) = some s ∧
        inOnFor s.pc = true ∧
        ∃ j, j ≤ ON_ITERATIONS + 1 ∧ s.trace = t1 ++ List.replicate j (Access.write 0x25 32)) ∧
      ON_ITERATIONS + 1 = 100001 ∧ Nat.testBit 32 5 = true := by
  obtain ⟨i1, m1, t1, h0, h⟩ := main_onInit m N
  refine ⟨i1, m1, t1, h0, ?_, ?_, rfl, by decide⟩
  · rw [h]
    exact run_onFor i1 m1 t1
  · intro k hk
    rw [h]
    exact run_onFor_mid i1 m1 t1 k hk

/-- C3: in every pass `N` of the infinite loop, for every memory at entry, the
second `for` statement is entered after `300009 + N * cycleSteps` steps and is
left, for the test of `while(1)`, exactly 3000005 steps later, having added to
the trace exactly `OFF_ITERATIONS + 1 = 1000001` accesses, each a write of the
byte 0, whose bit 5 is 0, to the port register at 0x25; at every step in
between the machine is inside that `for` statement and the statement has added
only such writes. -/
theorem C3_off_loop_writes (m : Mem) (N : Nat) :
    ∃ i1 m1 t1,
      main 32 m (300009 + N * cycleSteps) = some ⟨Pc.offInit, i1, m1, t1⟩ ∧
      main 32 m (300009 + N * cycleSteps + 3000005)
        = some ⟨Pc.whileTest, 1000001, store m1 0x25 0,
            t1 ++ List.replicate (OFF_ITERATIONS + 1) (Access.write 0x25 0)⟩ ∧
      (∀ k, k < 3000005 → ∃ s, main 32 m (300009 + N * cycleSteps + k) = some s ∧
        inOffFor s.pc = true ∧
        ∃ j, j ≤ OFF_ITERATIONS + 1 ∧ s.trace = t1 ++ List.replicate j (Access.write 0x25 0)) ∧
      OFF_ITERATIONS + 1 = 1000001 ∧ Nat.testBit 0 5 = false := by
  obtain ⟨i1, m1, t1, h0, h⟩ := main_offInit m N
  refine ⟨i1, m1, t1, h0, ?_, ?_, rfl, by decide⟩
  · rw [h]
    exact run_offFor i1 m1 t1
  · intro k hk
    rw [h]
    exact run_offFor_mid i1 m1 t1 k hk

/-- C4 (as amended): in every pass `N`, for every memory at entry, the ON phase
is the run number `2 * N` of the pin levels and has 100002 writes to the port
register, the OFF phase is the run number `2 * N + 1` and has 1000002 writes:
each phase is the write that enters it and the writes of its delay loop.  The
ratio of OFF writes to ON writes is therefore 1000002 / 100002; the ratio
1000001 / 100001 is that of the writes of the two delay loops alone. -/
theorem C4_phase_write_ratio (m : Mem) (N : Nat) :
    ∃ s nOn nOff, main 32 m (1 + (N + 1) * cycleSteps) = some s ∧
      (phases (levels s.trace))[2 * N]? = some (true, nOn) ∧
      (phases (levels s.trace))[2 * N + 1]? = some (false, nOff) ∧
      nOn = 1 + (ON_ITERATIONS + 1) ∧ nOff = 1 + (OFF_ITERATIONS + 1) ∧
      nOn = 100002 ∧ nOff = 1000002 ∧
      (nOff : ℚ) / (nOn : ℚ) = 1000002 / 100002 ∧
      ((OFF_ITERATIONS + 1 : Nat) : ℚ) / ((ON_ITERATIONS + 1 : Nat) : ℚ) = 1000001 / 100001 := by
  have hp := phases_atCycle m (N + 1)
  obtain ⟨h1, h2⟩ := flatten_pairs_getElem (true, 100002) (false, 1000002) (N + 1) N (by omega)
  refine ⟨atCycle m (N + 1), 100002, 1000002, main_cycles m (N + 1), ?_, ?_, rfl, rfl, rfl, rfl,
    ?_, ?_⟩
  · rw [hp]
    exact h1
  · rw [hp]
    exact h2
  · norm_num
  · norm_num [ON_ITERATIONS, OFF_ITERATIONS]

/-- C4 (as stated) fails: started on the all-zero memory, the first pass has
an ON phase of 100002 writes to the port register and an OFF phase of 1000002,
and 1000002 / 100002 is not 1000001 / 100001. -/
theorem C4_counterexample :
    ∃ s nOn nOff, main 32 (fun _ => 0) (1 + 1 * cycleSteps) = some s ∧
      phases (levels s.trace) = [(true, nOn), (false, nOff)] ∧
      ¬ ((nOff : ℚ) / (nOn : ℚ) = 1000001 / 100001) := by
  refine ⟨atCycle (fun _ => 0) 1, 100002, 1000002, main_cycles (fun _ => 0) 1,
    phases_atCycle (fun _ => 0) 1, ?_⟩
  norm_num

/-- C5: for every `N` and every memory at entry, the pin levels written to the
port register during the first `N` passes, split into maximal runs of equal
level, are exactly `2 * N` runs: ON with 100002 writes, OFF with 1000002
writes, ON, OFF, and so on, beginning with ON.  The run number `k` is ON
exactly when `k` is even, no run is empty, and neighbouring runs differ in
level. -/
theorem C5_phases_alternate (m : Mem) (N : Nat) :
    ∃ s, main 32 m (1 + N * cycleSteps) = some s ∧ s.pc = Pc.whileTest ∧
      phases (levels s.trace) = (List.replicate N [(true, 100002), (false, 1000002)]).flatten ∧
      (phases (levels s.trace)).length = 2 * N ∧
      (∀ k, k < 2 * N →
        ∃ n, 0 < n ∧ (phases (levels s.trace))[k]? = some (decide (k % 2 = 0), n)) ∧
      (phases (levels s.trace)).Chain' (fun p q => p.1 ≠ q.1) := by
  have hp := phases_atCycle m N
  refine ⟨atCycle m N, main_cycles m N, atCycle_pc m N, hp, ?_, ?_, phases_chain _⟩
  · rw [hp]
    exact flatten_pairs_length _ _ N
  · intro k hk
    rw [hp]
    obtain ⟨h1, h2⟩ := flatten_pairs_getElem (true, 100002) (false, 1000002) N (k / 2) (by omega)
    rcases Nat.mod_two_eq_zero_or_one k with h | h
    · have e : k = 2 * (k / 2) := by omega
      refine ⟨100002, by norm_num, ?_⟩
      rw [h]
      rw [e]
      exact h1
    · have e : k = 2 * (k / 2) + 1 := by omega
      refine ⟨1000002, by norm_num, ?_⟩
      rw [h]
      rw [e]
      exact h2

/-- C6: `main` never returns.  After the initialisation and `N` completed
ON/OFF passes, for every `N`, the machine is at the test of `while(1)`, steps
into the body and next writes 32 to the port register; and no execution of any
length reaches the returned state: every reachable state has a successor. -/
theorem C6_never_returns (m : Mem) (N : Nat) :
    (∃ s, main 32 m (1 + N * cycleSteps) = some s ∧ s.pc = Pc.whileTest ∧
      s.trace = Access.write 0x24 32 :: (List.replicate N cycleTrace).flatten ∧
      ∃ s1 s2, step 32 s = some s1 ∧ s1.pc = Pc.onWrite ∧ step 32 s1 = some s2 ∧
        s2.trace = s.trace ++ [Access.write 0x25 32]) ∧
    (∀ n, ∃ s, main 32 m n = some s ∧ s.pc ≠ Pc.exit ∧ ∃ s1, step 32 s = some s1) := by
  constructor
  · refine ⟨atCycle m N, main_cycles m N, atCycle_pc m N, atCycle_trace m N, ?_⟩
    have hpc := atCycle_pc m N
    generalize atCycle m N = A at hpc
    obtain ⟨pc, i, mem, t⟩ := A
    simp only at hpc
    subst hpc
    exact ⟨⟨Pc.onWrite, i, mem, t⟩, assign ⟨Pc.onWrite, i, mem, t⟩ builtled 32 Pc.onInit,
      by simp [step], rfl, rfl, rfl⟩
  · intro n
    obtain ⟨s, hs, hi⟩ := inv_main 32 m n
    obtain ⟨s1, h1, _⟩ := inv_step 32 m s hi
    exact ⟨s, hs, hi.1, s1, h1⟩

/-- C7: in every reachable state of `main` either nothing has happened yet, or
the trace is the single write of 32 to the direction register at 0x24 followed
only by writes to the port register at 0x25 (so the direction register is
written once, first, and never written again or read) and the direction
register holds 32; in particular it holds 32 before and after every step that
writes the port register. -/
theorem C7_direction_set_once (w : Nat) (m : Mem) (n : Nat) :
    ∃ s, main w m n = some s ∧
      ((s.pc = Pc.init ∧ s.trace = []) ∨
       (s.mem 0x24 = 32 ∧ ∃ rest, s.trace = Access.write 0x24 32 :: rest ∧
          ∀ e ∈ rest, ∃ v, e = Access.write 0x25 v)) ∧
      (∀ s2 v, step w s = some s2 → s2.trace = s.trace ++ [Access.write 0x25 v] →
        s.mem 0x24 = 32 ∧ s2.mem 0x24 = 32) := by
  obtain ⟨s, hs, hi⟩ := inv_main w m n
  have key : ∀ s : State, Inv m s → ((s.pc = Pc.init ∧ s.trace = []) ∨
       (s.mem 0x24 = 32 ∧ ∃ rest, s.trace = Access.write 0x24 32 :: rest ∧
          ∀ e ∈ rest, ∃ v, e = Access.write 0x25 v)) := by
    intro s hi
    rcases hi.2.2 with ⟨h1, _, h3⟩ | ⟨_, hd, rest, ht, hall, _⟩
    · exact Or.inl ⟨h1, h3⟩
    · refine Or.inr ⟨hd, rest, ht, ?_⟩
      intro e he
      rcases hall e he with rfl | rfl
      · exact ⟨32, rfl⟩
      · exact ⟨0, rfl⟩
  refine ⟨s, hs, key s hi, ?_⟩
  intro s2 v h2 ht2
  obtain ⟨s3, h3, hi3⟩ := inv_step w m s hi
  rw [h2] at h3
  cases h3
  rcases key s hi with ⟨hpc, _⟩ | ⟨hd, _⟩
  · obtain ⟨pc, i, mem, t⟩ := s
    simp only at hpc
    subst hpc
    simp [step, assign, portb] at h2
    subst h2
    simp at ht2
  · refine ⟨hd, ?_⟩
    rcases key s2 hi3 with ⟨_, hnil⟩ | ⟨hd2, _⟩
    · rw [hnil] at ht2
      simp at ht2
    · exact hd2

/-- C8: in every reachable state of `main` every access made so far is a write
of one byte, to 0x24 or to 0x25, and none is a read; the first access is the
initialisation write to 0x24 and every later one goes to 0x25; and every
address other than these two holds what it held at entry. -/
theorem C8_only_two_registers (w : Nat) (m : Mem) (n : Nat) :
    ∃ s, main w m n = some s ∧
      (∀ e ∈ s.trace, ∃ v, v < 256 ∧ (e = Access.write 0x24 v ∨ e = Access.write 0x25 v)) ∧
      (s.trace = [] ∨ ∃ rest, s.trace = Access.write 0x24 32 :: rest ∧
          ∀ e ∈ rest, ∃ v, e = Access.write 0x25 v) ∧
      (∀ a, a ≠ 0x24 → a ≠ 0x25 → s.mem a = m a) := by
  obtain ⟨s, hs, hi⟩ := inv_main w m n
  refine ⟨s, hs, ?_, ?_, hi.2.1⟩
  · rcases hi.2.2 with ⟨_, _, h3⟩ | ⟨_, _, rest, ht, hall, _⟩
    · simp [h3]
    · intro e he
      rw [ht, mem_cons] at he
      rcases he with rfl | he
      · exact ⟨32, by norm_num, Or.inl rfl⟩
      · rcases hall e he with rfl | rfl
        · exact ⟨32, by norm_num, Or.inr rfl⟩
        · exact ⟨0, by norm_num, Or.inr rfl⟩
  · rcases hi.2.2 with ⟨_, _, h3⟩ | ⟨_, _, rest, ht, hall, _⟩
    · exact Or.inl h3
    · refine Or.inr ⟨rest, ht, ?_⟩
      intro e he
      rcases hall e he with rfl | rfl
      · exact ⟨32, rfl⟩
      · exact ⟨0, rfl⟩

/-- C9: in every reachable state of `main`, for every content of memory at
entry, each value written to the port register so far is 32 or 0, and once the
port register has been written it holds the last value written, 32 or 0, so
that every bit of it other than bit 5 is 0 whatever the register held before. -/
theorem C9_port_whole_byte (w : Nat) (m : Mem) (n : Nat) :
    ∃ s, main w m n = some s ∧
      (∀ v ∈ portWrites s.trace, v = 32 ∨ v = 0) ∧
      ((portWrites s.trace = [] ∧ s.mem 0x25 = m 0x25) ∨
       (∃ v, (portWrites s.trace).getLast? = some v ∧ s.mem 0x25 = v ∧ (v = 32 ∨ v = 0) ∧
          ∀ k, k ≠ 5 → (s.mem 0x25).testBit k = false)) := by
  obtain ⟨s, hs, hi⟩ := inv_main w m n
  refine ⟨s, hs, ?_⟩
  rcases hi.2.2 with ⟨_, h2, h3⟩ | ⟨_, _, rest, ht, hall, hlast⟩
  · exact ⟨by simp [h3, portWrites], Or.inl ⟨by simp [h3, portWrites], by rw [h2]⟩⟩
  · have hp : portWrites s.trace = portWrites rest := by
      rw [ht]
      simp [portWrites, portb, builtled]
    rw [hp]
    refine ⟨portWrites_ports rest hall, ?_⟩
    rcases hlast with ⟨hnil, hm⟩ | ⟨v, hv, hm⟩
    · exact Or.inl ⟨by rw [hnil]; rfl, hm⟩
    · obtain ⟨ys, hys⟩ := getLast?_eq_some_iff.mp hv
      have hv2 : v = 32 ∨ v = 0 := by
        rcases hall (Access.write builtled v) (by rw [hys]; simp) with h | h
        · exact Or.inl (by injection h)
        · exact Or.inr (by injection h)
      refine Or.inr ⟨v, ?_, hm, hv2, ?_⟩
      · rw [hys, portWrites_append]
        simp [portWrites]
      · intro k hk
        have hm2 : s.mem 0x25 = v := hm
        rw [hm2]
        exact testBit_0_or_32 v k hv2 hk

/-- C10: with a `long` of 32 bits both delay loops end without wrap-around, in
every pass `N` and for every memory at entry.  In the first `for` the counter
is `j` at the test number `j`, for `j` from 0 to 100001, and is between 0 and
100001 at every state of the loop after `long i = 0`; before each of the 100001
increments `i + 1` is below `2 ^ 31` and is what `i++` stores; the test fails
first at `i = 100001`, after exactly 100001 iterations, 300005 steps after the
entry of the loop.  The same holds for the second `for` with 1000001 and
3000005.  A counter of 16 bits is never above 32767, so both tests succeed on
every value it can hold and the machine with such a counter never leaves the
first `for`. -/
theorem C10_counter_no_wrap (m : Mem) (N : Nat) :
    (∀ j : Nat, j ≤ 100001 → ∃ s, main 32 m (3 + N * cycleSteps + (1 + 3 * j)) = some s ∧
        s.pc = Pc.onTest ∧ s.i = j) ∧
    (∀ k, 0 < k → k < 300005 → ∃ s, main 32 m (3 + N * cycleSteps + k) = some s ∧
        ∃ j : Nat, j ≤ 100001 ∧ s.i = j) ∧
    (∀ j : Nat, j ≤ 100000 → ∃ s, main 32 m (3 + N * cycleSteps + (1 + 3 * j + 2)) = some s ∧
        s.pc = Pc.onInc ∧ s.i = j ∧ s.i + 1 < 2 ^ 31 ∧ wrapS 32 (s.i + 1) = s.i + 1) ∧
    (∃ s, main 32 m (3 + N * cycleSteps + 300005) = some s ∧
        s.pc = Pc.offWrite ∧ s.i = 100001) ∧
    (∀ j : Nat, j ≤ 1000001 → ∃ s, main 32 m (300009 + N * cycleSteps + (1 + 3 * j)) = some s ∧
        s.pc = Pc.offTest ∧ s.i = j) ∧
    (∀ k, 0 < k → k < 3000005 → ∃ s, main 32 m (300009 + N * cycleSteps + k) = some s ∧
        ∃ j : Nat, j ≤ 1000001 ∧ s.i = j) ∧
    (∀ j : Nat, j ≤ 1000000 →
        ∃ s, main 32 m (300009 + N * cycleSteps + (1 + 3 * j + 2)) = some s ∧
        s.pc = Pc.offInc ∧ s.i = j ∧ s.i + 1 < 2 ^ 31 ∧ wrapS 32 (s.i + 1) = s.i + 1) ∧
    (∃ s, main 32 m (300009 + N * cycleSteps + 3000005) = some s ∧
        s.pc = Pc.whileTest ∧ s.i = 1000001) ∧
    (∀ x : Int, wrapS 16 x ≤ 32767) ∧
    (∀ (x : Int) (mem : Mem) (t : List Access),
        step 16 ⟨Pc.onTest, wrapS 16 x, mem, t⟩ = some ⟨Pc.onBody, wrapS 16 x, mem, t⟩) ∧
    (∀ (x : Int) (mem : Mem) (t : List Access),
        step 16 ⟨Pc.offTest, wrapS 16 x, mem, t⟩ = some ⟨Pc.offBody, wrapS 16 x, mem, t⟩) ∧
    (∀ n, ∃ s, main 16 m n = some s ∧ inOffFor s.pc = false ∧ s.pc ≠ Pc.offWrite ∧
        s.pc ≠ Pc.exit) := by
  obtain ⟨i1, m1, t1, _, h⟩ := main_onInit m N
  obtain ⟨i2, m2, t2, _, h2⟩ := main_offInit m N
  refine ⟨?_, ?_, ?_, ?_, ?_, ?_, ?_, ?_, wrapS_16_le, ?_, ?_, ?_⟩
  · intro j hj
    rw [h]
    exact run_onFor_test i1 m1 t1 j hj
  · intro k h0 hk
    rw [h]
    exact run_onFor_counter i1 m1 t1 k h0 hk
  · intro j hj
    rw [h]
    obtain ⟨s, hs, hpc, hi⟩ := run_onFor_inc i1 m1 t1 j hj
    refine ⟨s, hs, hpc, hi, ?_, ?_⟩
    · rw [hi]
      norm_num
      omega
    · rw [hi]
      exact wrapS_32 _ (by omega) (by omega)
  · rw [h]
    exact ⟨_, run_onFor i1 m1 t1, rfl, rfl⟩
  · intro j hj
    rw [h2]
    exact run_offFor_test i2 m2 t2 j hj
  · intro k h0 hk
    rw [h2]
    exact run_offFor_counter i2 m2 t2 k h0 hk
  · intro j hj
    rw [h2]
    obtain ⟨s, hs, hpc, hi⟩ := run_offFor_inc i2 m2 t2 j hj
    refine ⟨s, hs, hpc, hi, ?_, ?_⟩
    · rw [hi]
      norm_num
      omega
    · rw [hi]
      exact wrapS_32 _ (by omega) (by omega)
  · rw [h2]
    exact ⟨_, run_offFor i2 m2 t2, rfl, rfl⟩
  · intro x mem t
    have hx := wrapS_16_le x
    have hc : wrapS 16 x ≤ 100000 := by omega
    simp [step, hc]
  · intro x mem t
    have hx := wrapS_16_le x
    have hc : wrapS 16 x ≤ 1000000 := by omega
    simp [step, hc]
  · intro n
    obtain ⟨s, hs, h1, h2, h3, _⟩ := stuck16_main m n
    exact ⟨s, hs, h1, h2, h3⟩

end Blink
